import Mathlib

/-!
Verification of the generic ring buffer of `src/firmware/esp32/include/ring_buffer.h`.

The header defines the `ring_buffer_t` structure and implements the inline
status queries (`ring_buffer_count`, `ring_buffer_capacity`,
`ring_buffer_is_empty`, `ring_buffer_is_full`, `ring_buffer_clear`,
`ring_buffer_available`) directly; those definitions below are translated
from that source.  The remaining operations (`ring_buffer_push`,
`ring_buffer_push_multiple`, `ring_buffer_pop`, `ring_buffer_pop_multiple`,
`ring_buffer_peek`, `ring_buffer_peek_at`, the zero-copy region functions and
their advance operations, and `ring_buffer_init`) are only declared in the
header — the repository contains no implementation — so they are modelled
from the specification (spec.md §3, §4.2–§4.8), as marked on each definition.

Bytes are modelled as natural numbers, the backing storage as a `List Nat`
whose length is the `size` field, and C pointers that may be NULL as
`Option`.  `head` and `tail` are byte offsets into the storage, all offset
arithmetic being taken modulo the storage length as the spec prescribes.
-/

/-- The `ring_buffer_t` structure of ring_buffer.h:21-28.  `buffer` holds the
bytes the C `uint8_t *buffer` points to; `size` is the total byte size,
`head` the write offset, `tail` the read offset, `count` the number of valid
elements and `element_size` the byte size of one element. -/
structure ring_buffer_t where
  buffer : List Nat
  size : Nat
  head : Nat
  tail : Nat
  count : Nat
  element_size : Nat
deriving DecidableEq

/-- Source (ring_buffer.h:115-117): `return rb->count;`. -/
def ring_buffer_count (rb : ring_buffer_t) : Nat := rb.count

/-- Source (ring_buffer.h:125-127): `return rb->size / rb->element_size;`. -/
def ring_buffer_capacity (rb : ring_buffer_t) : Nat :=
  rb.size / rb.element_size

/-- Source (ring_buffer.h:135-137): `return rb->count == 0;`. -/
def ring_buffer_is_empty (rb : ring_buffer_t) : Bool := rb.count == 0

/-- Source (ring_buffer.h:145-147): `return rb->count == ring_buffer_capacity(rb);`. -/
def ring_buffer_is_full (rb : ring_buffer_t) : Bool :=
  rb.count == ring_buffer_capacity rb

/-- Source (ring_buffer.h:154-158): sets `head`, `tail`, `count` to zero and
touches nothing else. -/
def ring_buffer_clear (rb : ring_buffer_t) : ring_buffer_t :=
  { rb with head := 0, tail := 0, count := 0 }

/-- Source (ring_buffer.h:166-168): `return ring_buffer_capacity(rb) - rb->count;`. -/
def ring_buffer_available (rb : ring_buffer_t) : Nat :=
  ring_buffer_capacity rb - rb.count

/-- Overwrite the bytes of `data` into `s` starting at byte offset `off`
(a `memcpy` into the storage; offsets past the end are dropped by `List.set`). -/
def setBytes : List Nat → Nat → List Nat → List Nat
  | s, _, [] => s
  | s, off, b :: bs => setBytes (s.set off b) (off + 1) bs

/-- Read `len` bytes of `s` starting at byte offset `off` (a `memcpy` out of
the storage; out-of-range reads default to 0). -/
def getBytes (s : List Nat) (off len : Nat) : List Nat :=
  (List.range len).map (fun i => s.getD (off + i) 0)

/-- Modelled from the spec (§4.2, no implementation under src/):
`ring_buffer_push` copies `element_size` bytes into the slot at `head` and
advances `head` by one element modulo the storage length; if the buffer is
full it also advances `tail` (overwrite policy, `count` stays at capacity),
otherwise it increments `count`.  It returns a success flag together with
the updated buffer; it never fails for a valid buffer and element. -/
def ring_buffer_push (rb : ring_buffer_t) (element : List Nat) :
    Bool × ring_buffer_t :=
  if rb.count == ring_buffer_capacity rb then
    (true, { rb with
      buffer := setBytes rb.buffer rb.head element
      head := (rb.head + rb.element_size) % rb.size
      tail := (rb.tail + rb.element_size) % rb.size })
  else
    (true, { rb with
      buffer := setBytes rb.buffer rb.head element
      head := (rb.head + rb.element_size) % rb.size
      count := rb.count + 1 })

/-- Sequential single-element pushes of a list of elements, left to right. -/
def pushAll : ring_buffer_t → List (List Nat) → ring_buffer_t
  | rb, [] => rb
  | rb, e :: es => pushAll (ring_buffer_push rb e).2 es

/-- Modelled from the spec (§4.3, no implementation under src/):
`ring_buffer_push_multiple` pushes the source elements in order (the same
overwrite policy per element) and returns the number written, which is the
number requested; a NULL source pointer (`none`) writes nothing and
returns zero. -/
def ring_buffer_push_multiple (rb : ring_buffer_t)
    (elements : Option (List (List Nat))) : Nat × ring_buffer_t :=
  match elements with
  | none => (0, rb)
  | some es => (es.length, pushAll rb es)

/-- Modelled from the spec (§4.4, no implementation under src/):
`ring_buffer_pop` copies the element at `tail` out (returned as `some`),
advances `tail` by one element modulo the storage length and decrements
`count`; on an empty buffer it copies nothing (`none`) and leaves the
buffer unchanged. -/
def ring_buffer_pop (rb : ring_buffer_t) :
    Option (List Nat) × ring_buffer_t :=
  if rb.count == 0 then (none, rb)
  else (some (getBytes rb.buffer rb.tail rb.element_size),
    { rb with
      tail := (rb.tail + rb.element_size) % rb.size
      count := rb.count - 1 })

/-- Modelled from the spec (§4.5, no implementation under src/):
`ring_buffer_pop_multiple` performs up to `n` single-element pops in FIFO
order, stopping early when the buffer empties; the popped elements are
returned in order (their number is `min n count`). -/
def ring_buffer_pop_multiple : ring_buffer_t → Nat → List (List Nat) × ring_buffer_t
  | rb, 0 => ([], rb)
  | rb, n + 1 =>
    match ring_buffer_pop rb with
    | (none, rb1) => ([], rb1)
    | (some e, rb1) =>
      let r := ring_buffer_pop_multiple rb1 n
      (e :: r.1, r.2)

/-- Modelled from the spec (§4.6, no implementation under src/):
`ring_buffer_peek` reads the element at `tail` without mutation; `none` on
an empty buffer. -/
def ring_buffer_peek (rb : ring_buffer_t) : Option (List Nat) :=
  if rb.count == 0 then none
  else some (getBytes rb.buffer rb.tail rb.element_size)

/-- Modelled from the spec (§4.6, no implementation under src/):
`ring_buffer_peek_at` reads the element `index` slots from the front
without mutation; `none` when `index >= count`. -/
def ring_buffer_peek_at (rb : ring_buffer_t) (index : Nat) :
    Option (List Nat) :=
  if index < rb.count then
    some (getBytes rb.buffer
      ((rb.tail + index * rb.element_size) % rb.size) rb.element_size)
  else none

/-- Modelled from the spec (§4.7, no implementation under src/):
`ring_buffer_get_write_region` returns NULL (`none`) on a full buffer, and
otherwise the byte offset `head` of the writable span together with its
length: the contiguous bytes up to the physical end of storage, capped by
the free capacity in bytes. -/
def ring_buffer_get_write_region (rb : ring_buffer_t) : Option (Nat × Nat) :=
  if rb.count == ring_buffer_capacity rb then none
  else
    let contiguous := rb.size - rb.head
    let freeBytes := (ring_buffer_capacity rb - rb.count) * rb.element_size
    some (rb.head, if contiguous ≤ freeBytes then contiguous else freeBytes)

/-- The byte length of the writable region of §4.7. -/
def writeRegionSize (rb : ring_buffer_t) : Nat :=
  min (rb.size - rb.head) (ring_buffer_available rb * rb.element_size)

/-- Modelled from the spec (§4.7 and §7, no implementation under src/):
`ring_buffer_advance_write` validates the advance against the region a
paired `ring_buffer_get_write_region` returns — the byte count must be a
whole multiple of `element_size` and no larger than that region — rejecting
the call (state unchanged) otherwise; on success it advances `head` and
adds the written elements to `count`. -/
def ring_buffer_advance_write (rb : ring_buffer_t) (bytes_written : Nat) :
    Bool × ring_buffer_t :=
  if bytes_written % rb.element_size != 0 then (false, rb)
  else if writeRegionSize rb < bytes_written then (false, rb)
  else (true, { rb with
    head := (rb.head + bytes_written) % rb.size
    count := rb.count + bytes_written / rb.element_size })

/-- The byte length of the readable region of §4.8. -/
def readRegionSize (rb : ring_buffer_t) : Nat :=
  min (rb.size - rb.tail) (rb.count * rb.element_size)

/-- Modelled from the spec (§4.8, no implementation under src/):
`ring_buffer_get_read_region` returns NULL (`none`) on an empty buffer, and
otherwise the byte offset `tail` of the readable span together with its
length, bounded by physical contiguity and by the stored data. -/
def ring_buffer_get_read_region (rb : ring_buffer_t) : Option (Nat × Nat) :=
  if rb.count == 0 then none
  else
    let contiguous := rb.size - rb.tail
    let dataBytes := rb.count * rb.element_size
    some (rb.tail, if contiguous ≤ dataBytes then contiguous else dataBytes)

/-- Modelled from the spec (§4.8 and §7, no implementation under src/):
`ring_buffer_advance_read` validates symmetrically to
`ring_buffer_advance_write` and on success advances `tail` and subtracts
the consumed elements from `count`. -/
def ring_buffer_advance_read (rb : ring_buffer_t) (bytes_read : Nat) :
    Bool × ring_buffer_t :=
  if bytes_read % rb.element_size != 0 then (false, rb)
  else if readRegionSize rb < bytes_read then (false, rb)
  else (true, { rb with
    tail := (rb.tail + bytes_read) % rb.size
    count := rb.count - bytes_read / rb.element_size })

/-- Modelled from the spec (§4.1, no implementation under src/):
`ring_buffer_init` rejects a NULL storage pointer, a zero size, a zero
element size, or a size not evenly divisible by the element size (the
spec's recommended rejection), and otherwise configures an empty buffer
over the given storage. -/
def ring_buffer_init (storage : Option (List Nat)) (buffer_size : Nat)
    (element_size : Nat) : Option ring_buffer_t :=
  match storage with
  | none => none
  | some s =>
    if buffer_size == 0 then none
    else if element_size == 0 then none
    else if buffer_size % element_size != 0 then none
    else if s.length != buffer_size then none
    else some ⟨s, buffer_size, 0, 0, 0, element_size⟩

/-- A validly initialized buffer state: positive element size and storage
size, element size dividing the storage size, the storage list carrying
`size` bytes, an element-aligned in-range `tail`, `count` within capacity,
and `head` sitting `count` elements past `tail` (mod the storage length).
These hold after `ring_buffer_init` succeeds and are preserved by every
operation. -/
def WF (rb : ring_buffer_t) : Prop :=
  0 < rb.element_size ∧ 0 < rb.size ∧
  rb.size % rb.element_size = 0 ∧
  rb.buffer.length = rb.size ∧
  rb.tail % rb.element_size = 0 ∧ rb.tail < rb.size ∧
  rb.count ≤ ring_buffer_capacity rb ∧
  rb.head = (rb.tail + rb.count * rb.element_size) % rb.size

instance (rb : ring_buffer_t) : Decidable (WF rb) := by
  unfold WF; infer_instance

/-- The element stored `i` slots after `tail` (byte offsets mod the storage
length, per spec §3). -/
def readElem (rb : ring_buffer_t) (i : Nat) : List Nat :=
  getBytes rb.buffer ((rb.tail + i * rb.element_size) % rb.size)
    rb.element_size

/-- The logical contents of the buffer, oldest first. -/
def contents (rb : ring_buffer_t) : List (List Nat) :=
  (List.range rb.count).map (readElem rb)

/-- The zero-initialized (never `ring_buffer_init`-ed) structure: all fields
zero, as given by `static ring_buffer_t rb;` or `memset`. -/
def zeroInitialized : ring_buffer_t := ⟨[], 0, 0, 0, 0, 0⟩

/-- The division `rb->size / rb->element_size` of `ring_buffer_capacity`
with its error branch explicit: `none` when the divisor `element_size` is
zero (division by zero, undefined behaviour in C). -/
def capacityChecked (rb : ring_buffer_t) : Option Nat :=
  if rb.element_size = 0 then none else some (rb.size / rb.element_size)

/-- `ring_buffer_is_full` with the division-by-zero branch of the
`ring_buffer_capacity` call it makes explicit. -/
def isFullChecked (rb : ring_buffer_t) : Option Bool :=
  (capacityChecked rb).map (fun c => rb.count == c)

/-- `ring_buffer_available` with the division-by-zero branch of the
`ring_buffer_capacity` call it makes explicit. -/
def availableChecked (rb : ring_buffer_t) : Option Nat :=
  (capacityChecked rb).map (fun c => c - rb.count)

/-! Frame lemmas: every operation leaves `size` and `element_size` (hence
`ring_buffer_capacity`) unchanged. -/

@[simp]
lemma push_size (rb : ring_buffer_t) (e : List Nat) :
    (ring_buffer_push rb e).2.size = rb.size := by
  unfold ring_buffer_push; split <;> rfl

@[simp]
lemma push_element_size (rb : ring_buffer_t) (e : List Nat) :
    (ring_buffer_push rb e).2.element_size = rb.element_size := by
  unfold ring_buffer_push; split <;> rfl

@[simp]
lemma capacity_push (rb : ring_buffer_t) (e : List Nat) :
    ring_buffer_capacity (ring_buffer_push rb e).2 = ring_buffer_capacity rb := by
  simp [ring_buffer_capacity]

lemma push_count (rb : ring_buffer_t) (e : List Nat) :
    (ring_buffer_push rb e).2.count =
      if rb.count = ring_buffer_capacity rb then rb.count else rb.count + 1 := by
  unfold ring_buffer_push
  by_cases h : rb.count = ring_buffer_capacity rb <;> simp [h]

@[simp]
lemma pop_size (rb : ring_buffer_t) :
    (ring_buffer_pop rb).2.size = rb.size := by
  unfold ring_buffer_pop; split <;> rfl

@[simp]
lemma pop_element_size (rb : ring_buffer_t) :
    (ring_buffer_pop rb).2.element_size = rb.element_size := by
  unfold ring_buffer_pop; split <;> rfl

@[simp]
lemma capacity_pop (rb : ring_buffer_t) :
    ring_buffer_capacity (ring_buffer_pop rb).2 = ring_buffer_capacity rb := by
  simp [ring_buffer_capacity]

lemma pop_count_le (rb : ring_buffer_t) :
    (ring_buffer_pop rb).2.count ≤ rb.count := by
  unfold ring_buffer_pop; split <;> simp

lemma pushAll_size (rb : ring_buffer_t) (l : List (List Nat)) :
    (pushAll rb l).size = rb.size := by
  induction l generalizing rb with
  | nil => rfl
  | cons e es ih => rw [pushAll, ih, push_size]

lemma pushAll_element_size (rb : ring_buffer_t) (l : List (List Nat)) :
    (pushAll rb l).element_size = rb.element_size := by
  induction l generalizing rb with
  | nil => rfl
  | cons e es ih => rw [pushAll, ih, push_element_size]

@[simp]
lemma capacity_pushAll (rb : ring_buffer_t) (l : List (List Nat)) :
    ring_buffer_capacity (pushAll rb l) = ring_buffer_capacity rb := by
  simp [ring_buffer_capacity, pushAll_size, pushAll_element_size]

lemma pop_multiple_size (rb : ring_buffer_t) (n : Nat) :
    (ring_buffer_pop_multiple rb n).2.size = rb.size := by
  induction n generalizing rb with
  | zero => rfl
  | succ n ih =>
    rw [ring_buffer_pop_multiple]
    rcases h : ring_buffer_pop rb with ⟨e, rb1⟩
    have hs : rb1.size = rb.size := by
      have := pop_size rb; rw [h] at this; exact this
    cases e with
    | none => simpa using hs
    | some v => simpa using (ih rb1).trans hs

lemma pop_multiple_element_size (rb : ring_buffer_t) (n : Nat) :
    (ring_buffer_pop_multiple rb n).2.element_size = rb.element_size := by
  induction n generalizing rb with
  | zero => rfl
  | succ n ih =>
    rw [ring_buffer_pop_multiple]
    rcases h : ring_buffer_pop rb with ⟨e, rb1⟩
    have hs : rb1.element_size = rb.element_size := by
      have := pop_element_size rb; rw [h] at this; exact this
    cases e with
    | none => simpa using hs
    | some v => simpa using (ih rb1).trans hs

lemma pop_multiple_count_le (rb : ring_buffer_t) (n : Nat) :
    (ring_buffer_pop_multiple rb n).2.count ≤ rb.count := by
  induction n generalizing rb with
  | zero => exact Nat.le_refl _
  | succ n ih =>
    rw [ring_buffer_pop_multiple]
    rcases h : ring_buffer_pop rb with ⟨e, rb1⟩
    have hc : rb1.count ≤ rb.count := by
      have := pop_count_le rb; rw [h] at this; exact this
    cases e with
    | none => simpa using hc
    | some v => simpa using (ih rb1).trans hc

/-- The zero-copy write region, written with `min`. -/
lemma get_write_region_eq (rb : ring_buffer_t) :
    ring_buffer_get_write_region rb =
      if rb.count = ring_buffer_capacity rb then none
      else some (rb.head, writeRegionSize rb) := by
  by_cases h : rb.count = ring_buffer_capacity rb <;>
    simp [ring_buffer_get_write_region, writeRegionSize,
      ring_buffer_available, min_def, h]

/-- The zero-copy read region, written with `min`. -/
lemma get_read_region_eq (rb : ring_buffer_t) :
    ring_buffer_get_read_region rb =
      if rb.count = 0 then none
      else some (rb.tail, readRegionSize rb) := by
  by_cases h : rb.count = 0 <;>
    simp [ring_buffer_get_read_region, readRegionSize, min_def, h]

lemma advance_write_reject (rb : ring_buffer_t) (n : Nat)
    (h : writeRegionSize rb < n ∨ n % rb.element_size ≠ 0) :
    ring_buffer_advance_write rb n = (false, rb) := by
  unfold ring_buffer_advance_write
  by_cases hm : n % rb.element_size = 0
  · have hlt : writeRegionSize rb < n := by tauto
    simp [hm, hlt]
  · simp [hm]

lemma advance_read_reject (rb : ring_buffer_t) (n : Nat)
    (h : readRegionSize rb < n ∨ n % rb.element_size ≠ 0) :
    ring_buffer_advance_read rb n = (false, rb) := by
  unfold ring_buffer_advance_read
  by_cases hm : n % rb.element_size = 0
  · have hlt : readRegionSize rb < n := by tauto
    simp [hm, hlt]
  · simp [hm]

/-- C8: the status queries equal their defining expressions —
`ring_buffer_count` returns the `count` field, `ring_buffer_capacity`
returns `size / element_size`, `ring_buffer_is_empty` is true iff
`count = 0`, `ring_buffer_is_full` is true iff `count = capacity`, and
`ring_buffer_available` returns `capacity - count`.  All are plain
functions of the buffer value (they return no modified state), so none
mutates any field. -/
theorem C8_queries (rb : ring_buffer_t) :
    ring_buffer_count rb = rb.count ∧
    ring_buffer_capacity rb = rb.size / rb.element_size ∧
    (ring_buffer_is_empty rb = true ↔ rb.count = 0) ∧
    (ring_buffer_is_full rb = true ↔ rb.count = ring_buffer_capacity rb) ∧
    ring_buffer_available rb = ring_buffer_capacity rb - rb.count := by
  refine ⟨rfl, rfl, ?_, ?_, rfl⟩ <;>
    simp [ring_buffer_is_empty, ring_buffer_is_full]

/-- C9: `ring_buffer_clear` zeroes `head`, `tail` and `count` (so the buffer
reports empty with count 0) and changes nothing else: the storage bytes,
`size` and `element_size` are untouched, hence the capacity is unchanged. -/
theorem C9_clear (rb : ring_buffer_t) :
    (ring_buffer_clear rb).head = 0 ∧
    (ring_buffer_clear rb).tail = 0 ∧
    (ring_buffer_clear rb).count = 0 ∧
    ring_buffer_is_empty (ring_buffer_clear rb) = true ∧
    ring_buffer_count (ring_buffer_clear rb) = 0 ∧
    (ring_buffer_clear rb).buffer = rb.buffer ∧
    (ring_buffer_clear rb).size = rb.size ∧
    (ring_buffer_clear rb).element_size = rb.element_size ∧
    ring_buffer_capacity (ring_buffer_clear rb) = ring_buffer_capacity rb := by
  simp [ring_buffer_clear, ring_buffer_is_empty, ring_buffer_count,
    ring_buffer_capacity]

/-- C7: on a buffer whose `count` is zero, `ring_buffer_pop` and
`ring_buffer_peek` fail — no element bytes are produced (`none`) and the
buffer state is returned unchanged. -/
theorem C7_empty_pop_peek (rb : ring_buffer_t) (h : rb.count = 0) :
    ring_buffer_pop rb = (none, rb) ∧ ring_buffer_peek rb = none := by
  simp [ring_buffer_pop, ring_buffer_peek, h]

theorem C7_empty_pop_peek_witness :
    ring_buffer_pop ⟨[7, 7], 2, 0, 0, 0, 1⟩ =
      (none, (⟨[7, 7], 2, 0, 0, 0, 1⟩ : ring_buffer_t)) ∧
    ring_buffer_peek ⟨[7, 7], 2, 0, 0, 0, 1⟩ = none :=
  C7_empty_pop_peek ⟨[7, 7], 2, 0, 0, 0, 1⟩ rfl

/-- C2: `ring_buffer_get_write_region` returns `none` exactly on a full
buffer; otherwise it returns the byte offset `head` into the storage and a
region size equal to the lesser of the bytes from `head` to the physical
end of the storage and the free capacity in bytes
(`ring_buffer_available * element_size`). -/
theorem C2_write_region (rb : ring_buffer_t) :
    (rb.count = ring_buffer_capacity rb →
      ring_buffer_get_write_region rb = none) ∧
    (rb.count ≠ ring_buffer_capacity rb →
      ring_buffer_get_write_region rb =
        some (rb.head,
          min (rb.size - rb.head)
            (ring_buffer_available rb * rb.element_size))) := by
  rw [get_write_region_eq]
  constructor
  · intro h; simp [h]
  · intro h; simp [h, writeRegionSize]

theorem C2_write_region_witness :
    ring_buffer_get_write_region ⟨[0, 0, 0, 0], 4, 0, 0, 2, 2⟩ = none ∧
    ring_buffer_get_write_region ⟨[0, 0, 0, 0], 4, 2, 0, 1, 2⟩ =
      some (2, min (4 - 2)
        (ring_buffer_available ⟨[0, 0, 0, 0], 4, 2, 0, 1, 2⟩ * 2)) :=
  ⟨(C2_write_region ⟨[0, 0, 0, 0], 4, 0, 0, 2, 2⟩).1 (by decide),
   (C2_write_region ⟨[0, 0, 0, 0], 4, 2, 0, 1, 2⟩).2 (by decide)⟩

/-- C6: an advance of the zero-copy write path by more bytes than the
region `ring_buffer_get_write_region` returned, or by a byte count that is
not a whole multiple of `element_size`, is rejected — `false` is returned
and the buffer (in particular `head`, `tail` and `count`) is unchanged;
symmetrically for `ring_buffer_advance_read` against
`ring_buffer_get_read_region`. -/
theorem C6_advance_validation (rb : ring_buffer_t) (off sz n : Nat) :
    (ring_buffer_get_write_region rb = some (off, sz) →
      sz < n ∨ n % rb.element_size ≠ 0 →
      ring_buffer_advance_write rb n = (false, rb)) ∧
    (ring_buffer_get_read_region rb = some (off, sz) →
      sz < n ∨ n % rb.element_size ≠ 0 →
      ring_buffer_advance_read rb n = (false, rb)) := by
  constructor
  · intro hreg hbad
    have hsz : sz = writeRegionSize rb := by
      rw [get_write_region_eq] at hreg
      split at hreg
      · exact absurd hreg (by simp)
      · simp only [Option.some.injEq, Prod.mk.injEq] at hreg
        exact hreg.2.symm
    exact advance_write_reject rb n (by rw [← hsz]; exact hbad)
  · intro hreg hbad
    have hsz : sz = readRegionSize rb := by
      rw [get_read_region_eq] at hreg
      split at hreg
      · exact absurd hreg (by simp)
      · simp only [Option.some.injEq, Prod.mk.injEq] at hreg
        exact hreg.2.symm
    exact advance_read_reject rb n (by rw [← hsz]; exact hbad)

theorem C6_advance_validation_witness :
    ring_buffer_get_write_region ⟨[0, 0, 0, 0], 4, 0, 0, 0, 2⟩ =
      some (0, 4) ∧
    ring_buffer_advance_write ⟨[0, 0, 0, 0], 4, 0, 0, 0, 2⟩ 6 =
      (false, (⟨[0, 0, 0, 0], 4, 0, 0, 0, 2⟩ : ring_buffer_t)) ∧
    ring_buffer_advance_write ⟨[0, 0, 0, 0], 4, 0, 0, 0, 2⟩ 3 =
      (false, (⟨[0, 0, 0, 0], 4, 0, 0, 0, 2⟩ : ring_buffer_t)) :=
  ⟨by decide,
   (C6_advance_validation ⟨[0, 0, 0, 0], 4, 0, 0, 0, 2⟩ 0 4 6).1
     (by decide) (Or.inl (by decide)),
   (C6_advance_validation ⟨[0, 0, 0, 0], 4, 0, 0, 0, 2⟩ 0 4 3).1
     (by decide) (Or.inr (by decide))⟩

/-- C10: `ring_buffer_capacity`, `ring_buffer_is_full` and
`ring_buffer_available` divide `size` by `element_size` with no guard: when
`element_size > 0` the division is well-defined and the checked variants
agree with the unguarded source computations, but on the zero-initialized
(never-initialized) structure `element_size = 0` and the division hits its
error branch (`none`, division by zero) in all three queries. -/
theorem C10_division_by_zero :
    (∀ rb : ring_buffer_t, 0 < rb.element_size →
      capacityChecked rb = some (ring_buffer_capacity rb) ∧
      isFullChecked rb = some (ring_buffer_is_full rb) ∧
      availableChecked rb = some (ring_buffer_available rb)) ∧
    zeroInitialized.element_size = 0 ∧
    capacityChecked zeroInitialized = none ∧
    isFullChecked zeroInitialized = none ∧
    availableChecked zeroInitialized = none := by
  refine ⟨?_, rfl, rfl, rfl, rfl⟩
  intro rb h
  have hne : rb.element_size ≠ 0 := Nat.pos_iff_ne_zero.mp h
  simp [capacityChecked, isFullChecked, availableChecked, hne,
    ring_buffer_capacity, ring_buffer_is_full, ring_buffer_available]

theorem C10_division_by_zero_witness :
    capacityChecked ⟨[0, 0, 0, 0], 4, 0, 0, 0, 2⟩ =
      some (ring_buffer_capacity ⟨[0, 0, 0, 0], 4, 0, 0, 0, 2⟩) ∧
    isFullChecked ⟨[0, 0, 0, 0], 4, 0, 0, 0, 2⟩ =
      some (ring_buffer_is_full ⟨[0, 0, 0, 0], 4, 0, 0, 0, 2⟩) ∧
    availableChecked ⟨[0, 0, 0, 0], 4, 0, 0, 0, 2⟩ =
      some (ring_buffer_available ⟨[0, 0, 0, 0], 4, 0, 0, 0, 2⟩) :=
  C10_division_by_zero.1 ⟨[0, 0, 0, 0], 4, 0, 0, 0, 2⟩ (by decide)

/-- C4 counterexample: the claim says `ring_buffer_push_multiple` returns
zero exactly when the source pointer or buffer is invalid, but a request of
zero elements from a valid (non-NULL) source on a well-formed buffer also
returns zero. -/
theorem C4_cex :
    (ring_buffer_push_multiple ⟨[0, 0], 2, 0, 0, 0, 1⟩
      (some ([] : List (List Nat)))).1 = 0 ∧
    (some ([] : List (List Nat)) ≠ (none : Option (List (List Nat)))) ∧
    WF ⟨[0, 0], 2, 0, 0, 0, 1⟩ := by
  refine ⟨rfl, by simp, by decide⟩

/-- C4 (amended): for a valid source of `n` elements,
`ring_buffer_push_multiple` returns `n` and produces a buffer state
identical (same head, tail, count, same stored bytes) to `n` sequential
`ring_buffer_push` calls on the same elements in order; an invalid (NULL)
source writes nothing and returns zero — though a valid request of zero
elements also returns zero. -/
theorem C4_push_multiple (rb : ring_buffer_t) (l : List (List Nat)) :
    (ring_buffer_push_multiple rb (some l)).1 = l.length ∧
    (ring_buffer_push_multiple rb (some l)).2 =
      l.foldl (fun b e => (ring_buffer_push b e).2) rb ∧
    (ring_buffer_push_multiple rb none).1 = 0 ∧
    (ring_buffer_push_multiple rb none).2 = rb := by
  refine ⟨rfl, ?_, rfl, rfl⟩
  show pushAll rb l = l.foldl (fun b e => (ring_buffer_push b e).2) rb
  induction l generalizing rb with
  | nil => rfl
  | cons e es ih => rw [pushAll, List.foldl_cons, ih]

lemma push_count_le (rb : ring_buffer_t) (e : List Nat)
    (h : rb.count ≤ ring_buffer_capacity rb) :
    (ring_buffer_push rb e).2.count ≤
      ring_buffer_capacity (ring_buffer_push rb e).2 := by
  rw [capacity_push, push_count]
  split
  · exact h
  · omega

lemma pushAll_count_le (l : List (List Nat)) :
    ∀ rb : ring_buffer_t, rb.count ≤ ring_buffer_capacity rb →
      (pushAll rb l).count ≤ ring_buffer_capacity (pushAll rb l) := by
  induction l with
  | nil => intro rb h; exact h
  | cons e es ih =>
    intro rb h
    rw [pushAll]
    exact ih _ (by simpa using push_count_le rb e h)

@[simp]
lemma advance_write_size (rb : ring_buffer_t) (n : Nat) :
    (ring_buffer_advance_write rb n).2.size = rb.size := by
  unfold ring_buffer_advance_write; split
  · rfl
  · split <;> rfl

@[simp]
lemma advance_write_element_size (rb : ring_buffer_t) (n : Nat) :
    (ring_buffer_advance_write rb n).2.element_size = rb.element_size := by
  unfold ring_buffer_advance_write; split
  · rfl
  · split <;> rfl

@[simp]
lemma advance_read_size (rb : ring_buffer_t) (n : Nat) :
    (ring_buffer_advance_read rb n).2.size = rb.size := by
  unfold ring_buffer_advance_read; split
  · rfl
  · split <;> rfl

@[simp]
lemma advance_read_element_size (rb : ring_buffer_t) (n : Nat) :
    (ring_buffer_advance_read rb n).2.element_size = rb.element_size := by
  unfold ring_buffer_advance_read; split
  · rfl
  · split <;> rfl

lemma advance_write_count_le (rb : ring_buffer_t) (n : Nat)
    (h : rb.count ≤ ring_buffer_capacity rb) :
    (ring_buffer_advance_write rb n).2.count ≤
      ring_buffer_capacity (ring_buffer_advance_write rb n).2 := by
  unfold ring_buffer_advance_write
  split
  · exact h
  · split
    · exact h
    · rename_i hm hle
      simp only [bne_iff_ne, ne_eq, not_not] at hm
      rw [Nat.not_lt] at hle
      have hfree : n ≤ ring_buffer_available rb * rb.element_size :=
        le_trans hle (min_le_right _ _)
      simp only [ring_buffer_capacity, ring_buffer_available] at *
      by_cases hz : rb.element_size = 0
      · rw [hz] at hm
        rw [Nat.mod_zero] at hm
        subst hm
        simpa using h
      · have hpos : 0 < rb.element_size := Nat.pos_of_ne_zero hz
        have hdiv : n / rb.element_size ≤
            rb.size / rb.element_size - rb.count := by
          have := Nat.div_le_div_right (c := rb.element_size) hfree
          rwa [Nat.mul_div_cancel _ hpos] at this
        omega

lemma advance_read_count_le (rb : ring_buffer_t) (n : Nat)
    (h : rb.count ≤ ring_buffer_capacity rb) :
    (ring_buffer_advance_read rb n).2.count ≤
      ring_buffer_capacity (ring_buffer_advance_read rb n).2 := by
  unfold ring_buffer_advance_read
  split
  · exact h
  · split
    · exact h
    · have h1 : rb.count - n / rb.element_size ≤ rb.count := Nat.sub_le _ _
      simp only [ring_buffer_capacity] at h ⊢
      exact le_trans h1 h

/-- C5: from any state with `count ≤ capacity`, every mutating operation of
the public API (`ring_buffer_push`, `ring_buffer_push_multiple`,
`ring_buffer_pop`, `ring_buffer_pop_multiple`, `ring_buffer_clear`,
`ring_buffer_advance_write`, `ring_buffer_advance_read`) yields a state
still satisfying `count ≤ capacity` (and `0 ≤ count` holds by type); the
peeks, region getters and status queries return no modified state at all,
so they preserve the relation trivially. -/
theorem C5_capacity_invariant (rb : ring_buffer_t)
    (h : rb.count ≤ ring_buffer_capacity rb) :
    (∀ e, (ring_buffer_push rb e).2.count ≤
      ring_buffer_capacity (ring_buffer_push rb e).2) ∧
    (∀ s, (ring_buffer_push_multiple rb s).2.count ≤
      ring_buffer_capacity (ring_buffer_push_multiple rb s).2) ∧
    ((ring_buffer_pop rb).2.count ≤
      ring_buffer_capacity (ring_buffer_pop rb).2) ∧
    (∀ n, (ring_buffer_pop_multiple rb n).2.count ≤
      ring_buffer_capacity (ring_buffer_pop_multiple rb n).2) ∧
    ((ring_buffer_clear rb).count ≤
      ring_buffer_capacity (ring_buffer_clear rb)) ∧
    (∀ n, (ring_buffer_advance_write rb n).2.count ≤
      ring_buffer_capacity (ring_buffer_advance_write rb n).2) ∧
    (∀ n, (ring_buffer_advance_read rb n).2.count ≤
      ring_buffer_capacity (ring_buffer_advance_read rb n).2) := by
  refine ⟨fun e => push_count_le rb e h, ?_, ?_, ?_, ?_,
    fun n => advance_write_count_le rb n h,
    fun n => advance_read_count_le rb n h⟩
  · intro s
    cases s with
    | none => exact h
    | some l => simpa [ring_buffer_push_multiple] using pushAll_count_le l rb h
  · calc (ring_buffer_pop rb).2.count ≤ rb.count := pop_count_le rb
      _ ≤ _ := by rwa [capacity_pop]
  · intro n
    have h1 := pop_multiple_count_le rb n
    have h2 : ring_buffer_capacity (ring_buffer_pop_multiple rb n).2 =
        ring_buffer_capacity rb := by
      simp [ring_buffer_capacity, pop_multiple_size, pop_multiple_element_size]
    rw [h2]; exact le_trans h1 h
  · simp [ring_buffer_clear, ring_buffer_capacity]

theorem C5_capacity_invariant_witness :
    (ring_buffer_push ⟨[0, 0, 0, 0], 4, 2, 0, 1, 2⟩ [5, 5]).2.count ≤
      ring_buffer_capacity
        (ring_buffer_push ⟨[0, 0, 0, 0], 4, 2, 0, 1, 2⟩ [5, 5]).2 ∧
    (ring_buffer_pop ⟨[0, 0, 0, 0], 4, 2, 0, 1, 2⟩).2.count ≤
      ring_buffer_capacity
        (ring_buffer_pop ⟨[0, 0, 0, 0], 4, 2, 0, 1, 2⟩).2 ∧
    (ring_buffer_advance_write ⟨[0, 0, 0, 0], 4, 2, 0, 1, 2⟩ 2).2.count ≤
      ring_buffer_capacity
        (ring_buffer_advance_write ⟨[0, 0, 0, 0], 4, 2, 0, 1, 2⟩ 2).2 :=
  ⟨(C5_capacity_invariant ⟨[0, 0, 0, 0], 4, 2, 0, 1, 2⟩ (by decide)).1 [5, 5],
   (C5_capacity_invariant ⟨[0, 0, 0, 0], 4, 2, 0, 1, 2⟩ (by decide)).2.2.1,
   (C5_capacity_invariant ⟨[0, 0, 0, 0], 4, 2, 0, 1, 2⟩ (by decide)).2.2.2.2.2.1 2⟩

/-! Byte-level lemmas: reading back ranges of storage after `setBytes`. -/

lemma setBytes_length (d : List Nat) (s : List Nat) (off : Nat) :
    (setBytes s off d).length = s.length := by
  induction d generalizing s off with
  | nil => rfl
  | cons b bs ih => rw [setBytes, ih, List.length_set]

lemma getD_setBytes_lt (d : List Nat) (s : List Nat) (off j : Nat)
    (h : j < off) : (setBytes s off d).getD j 0 = s.getD j 0 := by
  induction d generalizing s off with
  | nil => rfl
  | cons b bs ih =>
    rw [setBytes, ih _ _ (Nat.lt_succ_of_lt h)]
    simp [List.getD_eq_getElem?_getD, List.getElem?_set_ne (Nat.ne_of_gt h)]

lemma getD_setBytes_ge (d : List Nat) (s : List Nat) (off j : Nat)
    (h : off + d.length ≤ j) : (setBytes s off d).getD j 0 = s.getD j 0 := by
  induction d generalizing s off with
  | nil => rfl
  | cons b bs ih =>
    have hlen : off + (b :: bs).length = off + bs.length + 1 := by
      simp; omega
    rw [setBytes, ih _ _ (by omega)]
    have hne : off ≠ j := by
      simp only [List.length_cons] at h; omega
    simp [List.getD_eq_getElem?_getD, List.getElem?_set_ne hne]

lemma getD_setBytes_eq (d : List Nat) : ∀ (s : List Nat) (off i : Nat),
    i < d.length → off + d.length ≤ s.length →
    (setBytes s off d).getD (off + i) 0 = d.getD i 0 := by
  induction d with
  | nil => intro s off i hi _; exact absurd hi (by simp)
  | cons b bs ih =>
    intro s off i hi hlen
    rw [setBytes]
    cases i with
    | zero =>
      have h1 : (setBytes (s.set off b) (off + 1) bs).getD off 0
          = (s.set off b).getD off 0 :=
        getD_setBytes_lt bs _ _ _ (by omega)
      have hofflt : off < s.length := by
        simp only [List.length_cons] at hlen; omega
      simp only [Nat.add_zero, h1, List.getD_cons_zero]
      simp [List.getD_eq_getElem?_getD, List.getElem?_set_self, hofflt]
    | succ i2 =>
      have harith : off + (i2 + 1) = (off + 1) + i2 := by omega
      rw [harith, ih (s.set off b) (off + 1) i2
        (by simp only [List.length_cons] at hi; omega)
        (by rw [List.length_set]; simp only [List.length_cons] at hlen; omega)]
      simp

lemma getBytes_length (s : List Nat) (off len : Nat) :
    (getBytes s off len).length = len := by
  simp [getBytes]

lemma getBytes_setBytes_disjoint (d s : List Nat) (off off2 len : Nat)
    (h : off2 + len ≤ off ∨ off + d.length ≤ off2) :
    getBytes (setBytes s off d) off2 len = getBytes s off2 len := by
  unfold getBytes
  apply List.map_congr_left
  intro i hi
  rw [List.mem_range] at hi
  rcases h with h | h
  · exact getD_setBytes_lt d s off (off2 + i) (by omega)
  · exact getD_setBytes_ge d s off (off2 + i) (by omega)

lemma map_range_getD (d : List Nat) :
    (List.range d.length).map (fun i => d.getD i 0) = d := by
  apply List.ext_getElem
  · simp
  · intro i h1 h2
    simp [List.getD_eq_getElem?_getD, List.getElem?_eq_getElem h2]

lemma getBytes_setBytes_self (d s : List Nat) (off : Nat)
    (h : off + d.length ≤ s.length) :
    getBytes (setBytes s off d) off d.length = d := by
  unfold getBytes
  have hpt : ∀ i ∈ List.range d.length,
      (setBytes s off d).getD (off + i) 0 = d.getD i 0 :=
    fun i hi => getD_setBytes_eq d s off i (List.mem_range.mp hi) h
  exact (List.map_congr_left hpt).trans (map_range_getD d)

/-- Writing one element into slot `hs` does not disturb a read of a
different slot `j` (slots are `element_size`-byte aligned and disjoint). -/
lemma slotWrite_read_ne (s : List Nat) (es j hs : Nat) (e : List Nat)
    (he : e.length = es) (hne : j ≠ hs) :
    getBytes (setBytes s (hs * es) e) (j * es) es = getBytes s (j * es) es := by
  apply getBytes_setBytes_disjoint
  rcases Nat.lt_or_ge j hs with h | h
  · left
    have : (j + 1) * es ≤ hs * es := Nat.mul_le_mul_right es h
    calc j * es + es = (j + 1) * es := by ring
      _ ≤ hs * es := this
  · right
    have h2 : hs < j := lt_of_le_of_ne h (Ne.symm hne)
    have : (hs + 1) * es ≤ j * es := Nat.mul_le_mul_right es h2
    rw [he]
    calc hs * es + es = (hs + 1) * es := by ring
      _ ≤ j * es := this

/-! Slot arithmetic: under the well-formedness invariant the storage is
`capacity` aligned slots of `element_size` bytes, and every offset
computation lands on a slot boundary. -/

lemma cap_mul_eq (rb : ring_buffer_t) (hmod : rb.size % rb.element_size = 0) :
    ring_buffer_capacity rb * rb.element_size = rb.size :=
  Nat.div_mul_cancel (Nat.dvd_of_mod_eq_zero hmod)

lemma cap_pos (rb : ring_buffer_t) (hes : 0 < rb.element_size)
    (hsz : 0 < rb.size) (hmod : rb.size % rb.element_size = 0) :
    0 < ring_buffer_capacity rb :=
  Nat.div_pos (Nat.le_of_dvd hsz (Nat.dvd_of_mod_eq_zero hmod)) hes

lemma offset_mod (rb : ring_buffer_t) (hmod : rb.size % rb.element_size = 0)
    (a : Nat) :
    (a * rb.element_size) % rb.size =
      (a % ring_buffer_capacity rb) * rb.element_size := by
  conv_lhs => rw [← cap_mul_eq rb hmod]
  exact Nat.mul_mod_mul_right rb.element_size a (ring_buffer_capacity rb)

/-- The byte offset of the element `i` slots past `tail`, as a slot index. -/
lemma tail_offset_mod (rb : ring_buffer_t)
    (htm : rb.tail % rb.element_size = 0)
    (hmod : rb.size % rb.element_size = 0) (i : Nat) :
    (rb.tail + i * rb.element_size) % rb.size =
      ((rb.tail / rb.element_size + i) % ring_buffer_capacity rb) *
        rb.element_size := by
  have ht : rb.tail / rb.element_size * rb.element_size = rb.tail :=
    Nat.div_mul_cancel (Nat.dvd_of_mod_eq_zero htm)
  calc (rb.tail + i * rb.element_size) % rb.size
      = ((rb.tail / rb.element_size + i) * rb.element_size) % rb.size := by
        rw [Nat.add_mul, ht]
    _ = ((rb.tail / rb.element_size + i) % ring_buffer_capacity rb) *
        rb.element_size := offset_mod rb hmod _

lemma tail_slot_lt (rb : ring_buffer_t) (_hes : 0 < rb.element_size)
    (hmod : rb.size % rb.element_size = 0) (htl : rb.tail < rb.size) :
    rb.tail / rb.element_size < ring_buffer_capacity rb := by
  by_contra hge
  rw [Nat.not_lt] at hge
  have h1 : ring_buffer_capacity rb * rb.element_size ≤
      rb.tail / rb.element_size * rb.element_size :=
    Nat.mul_le_mul_right _ hge
  rw [cap_mul_eq rb hmod] at h1
  have h2 : rb.tail / rb.element_size * rb.element_size ≤ rb.tail :=
    Nat.div_mul_le_self _ _
  omega

/-- The `head` field of a well-formed buffer, as a slot index. -/
lemma head_slot (rb : ring_buffer_t) (hWF : WF rb) :
    rb.head = ((rb.tail / rb.element_size + rb.count) %
      ring_buffer_capacity rb) * rb.element_size := by
  obtain ⟨hes, hsz, hmod, hlen, htm, htl, hcnt, hhead⟩ := hWF
  rw [hhead, tail_offset_mod rb htm hmod]

/-- Two logical indices below `cap` that differ land on different slots. -/
lemma add_mod_ne (t i c cap : Nat) (hi : i < cap) (hc : c < cap)
    (hne : i ≠ c) : (t + i) % cap ≠ (t + c) % cap := by
  intro h
  have h2 : i ≡ c [MOD cap] := Nat.ModEq.add_left_cancel' t h
  rw [Nat.ModEq, Nat.mod_eq_of_lt hi, Nat.mod_eq_of_lt hc] at h2
  exact hne h2

lemma contents_length (rb : ring_buffer_t) :
    (contents rb).length = rb.count := by
  simp [contents]

lemma contents_empty (rb : ring_buffer_t) (h : rb.count = 0) :
    contents rb = [] := by
  simp [contents, h]

lemma contents_cons (rb : ring_buffer_t) (hne : rb.count ≠ 0) :
    contents rb = readElem rb 0 :: (contents rb).drop 1 := by
  obtain ⟨m, hm⟩ : ∃ m, rb.count = m + 1 := ⟨rb.count - 1, by omega⟩
  unfold contents
  rw [hm, List.range_succ_eq_map, List.map_cons]
  simp

lemma push_not_full_fields (rb : ring_buffer_t) (e : List Nat)
    (hnf : rb.count ≠ ring_buffer_capacity rb) :
    ring_buffer_push rb e = (true,
      { rb with buffer := setBytes rb.buffer rb.head e
                head := (rb.head + rb.element_size) % rb.size
                count := rb.count + 1 }) := by
  simp [ring_buffer_push, hnf]

lemma push_full_fields (rb : ring_buffer_t) (e : List Nat)
    (hf : rb.count = ring_buffer_capacity rb) :
    ring_buffer_push rb e = (true,
      { rb with buffer := setBytes rb.buffer rb.head e
                head := (rb.head + rb.element_size) % rb.size
                tail := (rb.tail + rb.element_size) % rb.size }) := by
  simp [ring_buffer_push, hf]

/-- `getBytes_setBytes_self`, stated with the read length given by an
equation on the data length. -/
lemma getBytes_setBytes_self_len (d s : List Nat) (off len : Nat)
    (hd : d.length = len) (h : off + len ≤ s.length) :
    getBytes (setBytes s off d) off len = d := by
  subst hd
  exact getBytes_setBytes_self d s off h

/-- Pushing on a non-full well-formed buffer appends the element to the
logical contents. -/
lemma contents_push_not_full (rb : ring_buffer_t) (e : List Nat)
    (hWF : WF rb) (he : e.length = rb.element_size)
    (hnf : rb.count ≠ ring_buffer_capacity rb) :
    contents (ring_buffer_push rb e).2 = contents rb ++ [e] := by
  have hhd := head_slot rb hWF
  obtain ⟨hes, hsz, hmod, hlen, htm, htl, hcnt, _⟩ := hWF
  have hcap_pos : 0 < ring_buffer_capacity rb := cap_pos rb hes hsz hmod
  have hclt : rb.count < ring_buffer_capacity rb := lt_of_le_of_ne hcnt hnf
  have hhs_lt : (rb.tail / rb.element_size + rb.count) %
      ring_buffer_capacity rb < ring_buffer_capacity rb :=
    Nat.mod_lt _ hcap_pos
  rw [push_not_full_fields rb e hnf]
  simp only [contents, List.range_succ, List.map_append,
    List.map_cons, List.map_nil]
  congr 1
  · apply List.map_congr_left
    intro i hi
    rw [List.mem_range] at hi
    simp only [readElem]
    rw [tail_offset_mod rb htm hmod i, hhd]
    exact slotWrite_read_ne rb.buffer rb.element_size _ _ e he
      (add_mod_ne _ i rb.count _ (lt_trans hi hclt) hclt (Nat.ne_of_lt hi))
  · simp only [readElem]
    rw [tail_offset_mod rb htm hmod rb.count, hhd]
    have hfit : ((rb.tail / rb.element_size + rb.count) %
        ring_buffer_capacity rb) * rb.element_size + rb.element_size ≤
        rb.buffer.length := by
      rw [hlen, ← cap_mul_eq rb hmod]
      calc ((rb.tail / rb.element_size + rb.count) %
            ring_buffer_capacity rb) * rb.element_size + rb.element_size
          = ((rb.tail / rb.element_size + rb.count) %
            ring_buffer_capacity rb + 1) * rb.element_size := by ring
        _ ≤ ring_buffer_capacity rb * rb.element_size :=
            Nat.mul_le_mul_right _ hhs_lt
    rw [getBytes_setBytes_self_len e rb.buffer _ _ he hfit]

/-- Pushing on a full well-formed buffer overwrites the oldest element:
the logical contents lose their head and gain the new element at the back. -/
lemma contents_push_full (rb : ring_buffer_t) (e : List Nat)
    (hWF : WF rb) (he : e.length = rb.element_size)
    (hf : rb.count = ring_buffer_capacity rb) :
    contents (ring_buffer_push rb e).2 = (contents rb).drop 1 ++ [e] := by
  have hhd := head_slot rb hWF
  obtain ⟨hes, hsz, hmod, hlen, htm, htl, hcnt, _⟩ := hWF
  have hcap_pos := cap_pos rb hes hsz hmod
  have ht_lt := tail_slot_lt rb hes hmod htl
  have hhd2 : rb.head = rb.tail / rb.element_size * rb.element_size := by
    rw [hhd, hf, Nat.add_mod_right, Nat.mod_eq_of_lt ht_lt]
  obtain ⟨m, hm⟩ : ∃ m, ring_buffer_capacity rb = m + 1 :=
    ⟨ring_buffer_capacity rb - 1, by omega⟩
  have hread : ∀ i, readElem (ring_buffer_push rb e).2 i =
      getBytes
        (setBytes rb.buffer (rb.tail / rb.element_size * rb.element_size) e)
        ((rb.tail / rb.element_size + (i + 1)) % ring_buffer_capacity rb *
          rb.element_size)
        rb.element_size := by
    intro i
    rw [push_full_fields rb e hf]
    simp only [readElem]
    rw [hhd2]
    congr 1
    rw [Nat.mod_add_mod]
    have harith : rb.tail + rb.element_size + i * rb.element_size =
        rb.tail + (i + 1) * rb.element_size := by ring
    rw [harith, tail_offset_mod rb htm hmod (i + 1)]
  have hRcount : (ring_buffer_push rb e).2.count = rb.count := by
    rw [push_full_fields rb e hf]
  have hdrop : (contents rb).drop 1 =
      (List.range m).map (fun i => readElem rb (i + 1)) := by
    rw [contents, hf, hm, List.range_succ_eq_map, List.map_cons]
    simp [List.map_map, Function.comp, Nat.succ_eq_add_one]
  rw [contents, hRcount, hf, hm, List.range_succ, List.map_append,
    List.map_cons, List.map_nil, hdrop]
  congr 1
  · apply List.map_congr_left
    intro i hi
    rw [List.mem_range] at hi
    rw [hread i]
    have hne : (rb.tail / rb.element_size + (i + 1)) %
        ring_buffer_capacity rb ≠ rb.tail / rb.element_size := by
      have h0 : (rb.tail / rb.element_size + 0) % ring_buffer_capacity rb =
          rb.tail / rb.element_size := by
        rw [Nat.add_zero, Nat.mod_eq_of_lt ht_lt]
      have h1 := add_mod_ne (rb.tail / rb.element_size) (i + 1) 0
        (ring_buffer_capacity rb) (by omega) hcap_pos (by omega)
      rw [h0] at h1
      exact h1
    rw [slotWrite_read_ne rb.buffer rb.element_size _ _ e he hne]
    rw [readElem, tail_offset_mod rb htm hmod (i + 1)]
  · rw [hread m]
    have hslot : (rb.tail / rb.element_size + (m + 1)) %
        ring_buffer_capacity rb = rb.tail / rb.element_size := by
      rw [← hm, Nat.add_mod_right, Nat.mod_eq_of_lt ht_lt]
    rw [hslot]
    have hfit : rb.tail / rb.element_size * rb.element_size +
        rb.element_size ≤ rb.buffer.length := by
      rw [hlen, ← cap_mul_eq rb hmod]
      calc rb.tail / rb.element_size * rb.element_size + rb.element_size
          = (rb.tail / rb.element_size + 1) * rb.element_size := by ring
        _ ≤ ring_buffer_capacity rb * rb.element_size :=
            Nat.mul_le_mul_right _ ht_lt
    rw [getBytes_setBytes_self_len e rb.buffer _ _ he hfit]

/-- One element past `tail`, written as a byte offset mod the storage
length, is one slot further as a slot index. -/
lemma tail_step_mod (rb : ring_buffer_t)
    (htm : rb.tail % rb.element_size = 0)
    (hmod : rb.size % rb.element_size = 0) :
    (rb.tail + rb.element_size) % rb.size =
      ((rb.tail / rb.element_size + 1) % ring_buffer_capacity rb) *
        rb.element_size := by
  have harith : rb.tail + rb.element_size =
      rb.tail + 1 * rb.element_size := by ring
  rw [harith, tail_offset_mod rb htm hmod 1]

/-- Pushing preserves well-formedness. -/
lemma WF_push (rb : ring_buffer_t) (e : List Nat) (hWF : WF rb) :
    WF (ring_buffer_push rb e).2 := by
  obtain ⟨hes, hsz, hmod, hlen, htm, htl, hcnt, hhead⟩ := hWF
  have hhead_tail : rb.count = ring_buffer_capacity rb → rb.head = rb.tail := by
    intro hf
    rw [hhead, hf, cap_mul_eq rb hmod, Nat.add_mod_right, Nat.mod_eq_of_lt htl]
  by_cases hf : rb.count = ring_buffer_capacity rb
  · rw [push_full_fields rb e hf, WF]
    simp only [ring_buffer_capacity]
    refine ⟨hes, hsz, hmod, ?_, ?_, ?_, ?_, ?_⟩
    · rw [setBytes_length, hlen]
    · rw [tail_step_mod rb htm hmod, Nat.mul_mod_left]
    · exact Nat.mod_lt _ hsz
    · simp only [ring_buffer_capacity] at hcnt; exact hcnt
    · rw [Nat.mod_add_mod, hhead_tail hf]
      have hc2 : rb.count * rb.element_size = rb.size := by
        rw [hf]; exact cap_mul_eq rb hmod
      have harith : rb.tail + rb.element_size + rb.count * rb.element_size =
          rb.tail + rb.element_size + rb.size := by rw [hc2]
      rw [harith, Nat.add_mod_right]
  · rw [push_not_full_fields rb e hf, WF]
    simp only [ring_buffer_capacity]
    refine ⟨hes, hsz, hmod, ?_, htm, htl, ?_, ?_⟩
    · rw [setBytes_length, hlen]
    · simp only [ring_buffer_capacity] at hcnt
      have : rb.count ≠ rb.size / rb.element_size := by
        simpa [ring_buffer_capacity] using hf
      omega
    · rw [hhead, Nat.mod_add_mod]
      have harith : rb.tail + rb.count * rb.element_size + rb.element_size =
          rb.tail + (rb.count + 1) * rb.element_size := by ring
      rw [harith]

lemma pop_fields (rb : ring_buffer_t) (hne : rb.count ≠ 0) :
    ring_buffer_pop rb =
      (some (getBytes rb.buffer rb.tail rb.element_size),
        { rb with tail := (rb.tail + rb.element_size) % rb.size
                  count := rb.count - 1 }) := by
  simp [ring_buffer_pop, hne]

lemma readElem_zero (rb : ring_buffer_t) (htl : rb.tail < rb.size) :
    readElem rb 0 = getBytes rb.buffer rb.tail rb.element_size := by
  rw [readElem]
  congr 1
  simp [Nat.mod_eq_of_lt htl]

/-- Popping a non-empty well-formed buffer returns the oldest element,
drops it from the logical contents, decrements `count`, and preserves
well-formedness. -/
lemma pop_spec (rb : ring_buffer_t) (hWF : WF rb) (hne : rb.count ≠ 0) :
    (ring_buffer_pop rb).1 = some (readElem rb 0) ∧
    contents (ring_buffer_pop rb).2 = (contents rb).drop 1 ∧
    (ring_buffer_pop rb).2.count = rb.count - 1 ∧
    WF (ring_buffer_pop rb).2 := by
  obtain ⟨hes, hsz, hmod, hlen, htm, htl, hcnt, hhead⟩ := hWF
  obtain ⟨k, hk⟩ : ∃ k, rb.count = k + 1 := ⟨rb.count - 1, by omega⟩
  have hread2 : ∀ i, readElem (ring_buffer_pop rb).2 i = readElem rb (i + 1) := by
    intro i
    rw [pop_fields rb hne]
    simp only [readElem]
    rw [Nat.mod_add_mod]
    congr 1
    ring_nf
  have hcnt2 : (ring_buffer_pop rb).2.count = rb.count - 1 := by
    rw [pop_fields rb hne]
  refine ⟨?_, ?_, hcnt2, ?_⟩
  · rw [pop_fields rb hne, readElem_zero rb htl]
  · have hdrop : (contents rb).drop 1 =
        (List.range k).map (fun i => readElem rb (i + 1)) := by
      rw [contents, hk, List.range_succ_eq_map, List.map_cons]
      simp [List.map_map, Function.comp, Nat.succ_eq_add_one]
    rw [contents, hcnt2, hk, Nat.add_sub_cancel, hdrop]
    apply List.map_congr_left
    intro i _
    exact hread2 i
  · rw [pop_fields rb hne, WF]
    simp only [ring_buffer_capacity]
    refine ⟨hes, hsz, hmod, hlen, ?_, ?_, ?_, ?_⟩
    · rw [tail_step_mod rb htm hmod, Nat.mul_mod_left]
    · exact Nat.mod_lt _ hsz
    · simp only [ring_buffer_capacity] at hcnt; omega
    · rw [Nat.mod_add_mod]
      have harith : rb.tail + rb.element_size +
          (rb.count - 1) * rb.element_size =
          rb.tail + rb.count * rb.element_size := by
        rw [hk, Nat.add_sub_cancel]; ring
      rw [harith]
      exact hhead

/-- Sequential pushes preserve well-formedness. -/
lemma WF_pushAll (l : List (List Nat)) : ∀ rb : ring_buffer_t, WF rb →
    WF (pushAll rb l) := by
  induction l with
  | nil => intro rb h; exact h
  | cons e es ih =>
    intro rb h
    rw [pushAll]
    exact ih _ (WF_push rb e h)

/-- Sequential pushes keep the suffix of the pushed stream that fits:
the resulting contents are the old contents followed by the pushed
elements, with the overflow dropped from the front. -/
lemma contents_pushAll (l : List (List Nat)) : ∀ rb : ring_buffer_t, WF rb →
    (∀ e ∈ l, e.length = rb.element_size) →
    contents (pushAll rb l) =
      (contents rb ++ l).drop
        (rb.count + l.length - ring_buffer_capacity rb) := by
  induction l with
  | nil =>
    intro rb hWF _
    have hcnt := hWF.2.2.2.2.2.2.1
    rw [pushAll, List.append_nil]
    have hidx : rb.count + ([] : List (List Nat)).length -
        ring_buffer_capacity rb = 0 := by
      simp only [List.length_nil]; omega
    rw [hidx, List.drop_zero]
  | cons e es ih =>
    intro rb hWF hlen
    have he : e.length = rb.element_size := hlen e (List.mem_cons_self e es)
    have hWF2 := WF_push rb e hWF
    have hlen2 : ∀ x ∈ es, x.length = (ring_buffer_push rb e).2.element_size := by
      intro x hx
      rw [push_element_size]
      exact hlen x (List.mem_cons_of_mem e hx)
    rw [pushAll, ih _ hWF2 hlen2, capacity_push]
    by_cases hf : rb.count = ring_buffer_capacity rb
    · have hc1 : (ring_buffer_push rb e).2.count = rb.count := by
        rw [push_count]; simp [hf]
      rw [hc1, contents_push_full rb e hWF he hf, hf]
      have hlen_c : (contents rb).length = ring_buffer_capacity rb := by
        rw [contents_length, hf]
      have hcap_pos : 0 < ring_buffer_capacity rb :=
        cap_pos rb hWF.1 hWF.2.1 hWF.2.2.1
      have hidx1 : ring_buffer_capacity rb + es.length -
          ring_buffer_capacity rb = es.length := by omega
      have hidx2 : ring_buffer_capacity rb + (e :: es).length -
          ring_buffer_capacity rb = 1 + es.length := by
        simp only [List.length_cons]; omega
      rw [hidx1, hidx2, List.append_assoc, List.singleton_append]
      have hd : (contents rb ++ (e :: es)).drop 1 =
          (contents rb).drop 1 ++ (e :: es) :=
        List.drop_append_of_le_length (by omega)
      rw [← hd]
      exact List.drop_drop es.length 1 _
    · have hc1 : (ring_buffer_push rb e).2.count = rb.count + 1 := by
        rw [push_count]; simp [hf]
      rw [hc1, contents_push_not_full rb e hWF he hf, List.append_assoc]
      have hidx : rb.count + 1 + es.length - ring_buffer_capacity rb =
          rb.count + (e :: es).length - ring_buffer_capacity rb := by
        simp only [List.length_cons]; omega
      rw [hidx]
      rfl

/-- Popping exactly `count` elements returns the whole logical contents in
FIFO order. -/
lemma pop_multiple_eq_contents : ∀ (n : Nat) (rb : ring_buffer_t), WF rb →
    rb.count = n → (ring_buffer_pop_multiple rb n).1 = contents rb := by
  intro n
  induction n with
  | zero =>
    intro rb _ h0
    rw [ring_buffer_pop_multiple, contents_empty rb h0]
  | succ n ih =>
    intro rb hWF hc
    have hne : rb.count ≠ 0 := by omega
    obtain ⟨hfst, hcont, hcnt2, hWF2⟩ := pop_spec rb hWF hne
    rw [ring_buffer_pop_multiple]
    rcases hp : ring_buffer_pop rb with ⟨o, rb1⟩
    rw [hp] at hfst hcont hcnt2 hWF2
    simp only at hfst hcont hcnt2 hWF2
    cases o with
    | none => exact absurd hfst (by simp)
    | some v =>
      simp only
      have hv : v = readElem rb 0 := by
        have := hfst
        simp only [Option.some.injEq] at this
        exact this
      have hn1 : rb1.count = n := by omega
      rw [ih rb1 hWF2 hn1, hcont, hv]
      exact (contents_cons rb hne).symm

/-- C1: on a full, well-formed buffer, `ring_buffer_push` succeeds, writes
the element bytes into the slot at `head` (which coincides with `tail`,
the oldest element), advances both `head` and `tail` by one element, and
keeps `count` at capacity; the logical contents lose the oldest element
and gain the new one.  Consequently, pushing more than `capacity` elements
into an empty buffer leaves exactly the last `capacity` pushed elements,
oldest first, and a push never reports failure. -/
theorem C1_push_overwrite :
    (∀ (rb : ring_buffer_t) (e : List Nat), WF rb →
      e.length = rb.element_size → rb.count = ring_buffer_capacity rb →
      (ring_buffer_push rb e).1 = true ∧
      (ring_buffer_push rb e).2.buffer = setBytes rb.buffer rb.head e ∧
      (ring_buffer_push rb e).2.head =
        (rb.head + rb.element_size) % rb.size ∧
      (ring_buffer_push rb e).2.tail =
        (rb.tail + rb.element_size) % rb.size ∧
      (ring_buffer_push rb e).2.count = ring_buffer_capacity rb ∧
      rb.head = rb.tail ∧
      contents (ring_buffer_push rb e).2 = (contents rb).drop 1 ++ [e]) ∧
    (∀ (rb : ring_buffer_t) (l : List (List Nat)), WF rb → rb.count = 0 →
      (∀ e ∈ l, e.length = rb.element_size) →
      ring_buffer_capacity rb < l.length →
      contents (pushAll rb l) =
        l.drop (l.length - ring_buffer_capacity rb)) ∧
    (∀ (rb : ring_buffer_t) (e : List Nat), (ring_buffer_push rb e).1 = true) := by
  refine ⟨?_, ?_, ?_⟩
  · intro rb e hWF he hf
    have hcontents := contents_push_full rb e hWF he hf
    have hhead_tail : rb.head = rb.tail := by
      obtain ⟨hes, hsz, hmod, hlen, htm, htl, hcnt, hhead⟩ := hWF
      rw [hhead, hf, cap_mul_eq rb hmod, Nat.add_mod_right,
        Nat.mod_eq_of_lt htl]
    rw [push_full_fields rb e hf]
    exact ⟨rfl, rfl, rfl, rfl, hf, hhead_tail, by
      rw [← push_full_fields rb e hf]; exact hcontents⟩
  · intro rb l hWF h0 hlen hover
    rw [contents_pushAll l rb hWF hlen, contents_empty rb h0,
      List.nil_append, h0, Nat.zero_add]
  · intro rb e
    unfold ring_buffer_push
    split <;> rfl

theorem C1_push_overwrite_witness :
    (ring_buffer_push ⟨[1, 2, 3, 4], 4, 0, 0, 2, 2⟩ [9, 9]).1 = true ∧
    (ring_buffer_push ⟨[1, 2, 3, 4], 4, 0, 0, 2, 2⟩ [9, 9]).2.buffer =
      setBytes [1, 2, 3, 4] 0 [9, 9] ∧
    (ring_buffer_push ⟨[1, 2, 3, 4], 4, 0, 0, 2, 2⟩ [9, 9]).2.head =
      (0 + 2) % 4 ∧
    (ring_buffer_push ⟨[1, 2, 3, 4], 4, 0, 0, 2, 2⟩ [9, 9]).2.tail =
      (0 + 2) % 4 ∧
    (ring_buffer_push ⟨[1, 2, 3, 4], 4, 0, 0, 2, 2⟩ [9, 9]).2.count =
      ring_buffer_capacity ⟨[1, 2, 3, 4], 4, 0, 0, 2, 2⟩ ∧
    (0 : Nat) = 0 ∧
    contents (ring_buffer_push ⟨[1, 2, 3, 4], 4, 0, 0, 2, 2⟩ [9, 9]).2 =
      (contents ⟨[1, 2, 3, 4], 4, 0, 0, 2, 2⟩).drop 1 ++ [[9, 9]] :=
  C1_push_overwrite.1 ⟨[1, 2, 3, 4], 4, 0, 0, 2, 2⟩ [9, 9]
    (by decide) (by decide) (by decide)

/-- C3: from an empty well-formed buffer, pushing `N ≤ capacity` elements
one at a time and then popping `N` elements returns exactly the pushed
sequence in order; the same holds going through
`ring_buffer_push_multiple` and `ring_buffer_pop_multiple`. -/
theorem C3_fifo_round_trip (rb : ring_buffer_t) (l : List (List Nat))
    (hWF : WF rb) (h0 : rb.count = 0)
    (hlen : ∀ e ∈ l, e.length = rb.element_size)
    (hcap : l.length ≤ ring_buffer_capacity rb) :
    (ring_buffer_pop_multiple (pushAll rb l) l.length).1 = l ∧
    (ring_buffer_pop_multiple
      (ring_buffer_push_multiple rb (some l)).2 l.length).1 = l := by
  have hWF2 := WF_pushAll l rb hWF
  have hcont : contents (pushAll rb l) = l := by
    rw [contents_pushAll l rb hWF hlen, contents_empty rb h0,
      List.nil_append, h0, Nat.zero_add]
    have hidx : l.length - ring_buffer_capacity rb = 0 := by omega
    rw [hidx, List.drop_zero]
  have hcnt : (pushAll rb l).count = l.length := by
    have := contents_length (pushAll rb l)
    rw [hcont] at this
    omega
  have hmain : (ring_buffer_pop_multiple (pushAll rb l) l.length).1 = l := by
    rw [pop_multiple_eq_contents l.length (pushAll rb l) hWF2 hcnt, hcont]
  exact ⟨hmain, hmain⟩

theorem C3_fifo_round_trip_witness :
    (ring_buffer_pop_multiple
      (pushAll ⟨[0, 0, 0, 0], 4, 0, 0, 0, 2⟩ [[1, 2], [3, 4]]) 2).1 =
      [[1, 2], [3, 4]] ∧
    (ring_buffer_pop_multiple
      (ring_buffer_push_multiple ⟨[0, 0, 0, 0], 4, 0, 0, 0, 2⟩
        (some [[1, 2], [3, 4]])).2 2).1 = [[1, 2], [3, 4]] :=
  C3_fifo_round_trip ⟨[0, 0, 0, 0], 4, 0, 0, 0, 2⟩ [[1, 2], [3, 4]]
    (by decide) (by decide) (by decide) (by decide)
